import Mathlib

/-!
Verification of the sorcerer source-finding pipeline.

The repository's output collaborators (`sorcerer/output.py`,
`sorcerer/wcs_helper.py`) are embedded directly from their source.  The
core region engine (`BoxSet`, `Search`, `IntegralImage`) is shipped as a
separate compiled module that is absent from the source tree; those parts
are modelled from the specification, and each such definition is marked
`Modelled from the spec`.

Conventions of the embedding:
* a Grid cell is `Option ℚ`: `some q` is a finite value `q`, `none` is a
  non-finite value (NaN/inf);
* boolean numpy arrays become total functions `Nat → Nat → Bool` together
  with explicit dimensions; cells outside the stored extent read `false`;
* in-place mutation becomes explicit state passing: an operation that the
  code performs on a caller-owned buffer is a function from the old buffer
  to the new buffer, and a caller that "discards the return value" is
  embedded as threading that new buffer onward.
-/

namespace Sorcerer

/-- A 2-D floating-point image: height, width and a cell lookup.
`none` models a non-finite (NaN/inf) pixel. Cells outside `H × W` are
irrelevant to the code, which only ever indexes inside the array extent. -/
structure Grid where
  H : Nat
  W : Nat
  cells : Nat → Nat → Option ℚ

/-- The summation value of a cell: a non-finite cell contributes zero. -/
def gval (g : Grid) (y x : Nat) : ℚ :=
  (g.cells y x).getD 0

/-- Error raised by `IntegralImage` when a rectangle query is empty or out
of the grid bounds. -/
inductive RangeError where
  | rangeError
deriving DecidableEq, Repr

/-- Modelled from the spec: the `IntegralImage` prefix-sum table (the
module implementing it is not in the source tree).  `table g y x` holds
the cumulative sum of all cells strictly above-and-left of `(y, x)`,
treating non-finite cells as zero. -/
def table (g : Grid) (y x : Nat) : ℚ :=
  ∑ i ∈ Finset.range y, ∑ j ∈ Finset.range x, gval g i j

/-- Modelled from the spec: `IntegralImage.rectangle_sum` over the
half-open rectangle `[y1,y2) × [x1,x2)` via the four-corner lookup
identity, failing with `RangeError` if the rectangle is empty or out of
grid bounds. -/
def rectangle_sum (g : Grid) (x1 y1 x2 y2 : Nat) : Except RangeError ℚ :=
  if x1 < x2 ∧ y1 < y2 ∧ x2 ≤ g.W ∧ y2 ≤ g.H then
    .ok (table g y2 x2 - table g y1 x2 - table g y2 x1 + table g y1 x1)
  else
    .error .rangeError

/-- The direct (non-incremental) sum of the grid cells of the rectangle
`[y1,y2) × [x1,x2)`, non-finite cells contributing zero. -/
def directSum (g : Grid) (x1 y1 x2 y2 : Nat) : ℚ :=
  ∑ i ∈ Finset.Ico y1 y2, ∑ j ∈ Finset.Ico x1 x2, gval g i j

theorem table_sub_table (g : Grid) (y1 y2 x : Nat) (h : y1 ≤ y2) :
    table g y2 x - table g y1 x =
      ∑ i ∈ Finset.Ico y1 y2, ∑ j ∈ Finset.range x, gval g i j := by
  unfold table
  rw [Finset.sum_Ico_eq_sub _ h]

/-- C4: for every Grid and every non-empty axis-aligned rectangle
`[y1,y2) × [x1,x2)` lying within grid bounds, `IntegralImage.rectangle_sum`
answers exactly the direct summation of the grid cells of the rectangle,
with non-finite cells contributing zero to the sum. -/
theorem C4_rectangle_sum_correct (g : Grid) (x1 y1 x2 y2 : Nat)
    (hx : x1 < x2) (hy : y1 < y2) (hW : x2 ≤ g.W) (hH : y2 ≤ g.H) :
    rectangle_sum g x1 y1 x2 y2 = .ok (directSum g x1 y1 x2 y2) := by
  unfold rectangle_sum
  rw [if_pos ⟨hx, hy, hW, hH⟩]
  congr 1
  have h1 := table_sub_table g y1 y2 x2 (Nat.le_of_lt hy)
  have h2 := table_sub_table g y1 y2 x1 (Nat.le_of_lt hy)
  have key : table g y2 x2 - table g y1 x2 - table g y2 x1 + table g y1 x1 =
      (table g y2 x2 - table g y1 x2) - (table g y2 x1 - table g y1 x1) := by
    ring
  rw [key, h1, h2, ← Finset.sum_sub_distrib]
  unfold directSum
  refine Finset.sum_congr rfl fun i _ => ?_
  rw [Finset.sum_Ico_eq_sub _ (Nat.le_of_lt hx)]

/-- A small concrete grid used to witness the rectangle-sum theorem: a
2×2 image with one non-finite cell. -/
def gridExample : Grid :=
  { H := 2, W := 2,
    cells := fun y x =>
      if y = 0 ∧ x = 0 then some 3
      else if y = 0 ∧ x = 1 then none
      else some 1 }

theorem C4_rectangle_sum_correct_witness :
    rectangle_sum gridExample 0 0 2 2 = .ok (directSum gridExample 0 0 2 2) :=
  C4_rectangle_sum_correct gridExample 0 0 2 2 (by decide) (by decide)
    (by decide) (by decide)

/-- Half-open bounding rectangle `(x1, y1, x2, y2)` of a detected region. -/
structure Bounds where
  x1 : Nat
  y1 : Nat
  x2 : Nat
  y2 : Nat
deriving DecidableEq, Repr

/-- The region value type: identity, bounding rectangle, and a boolean
membership mask local to the bounds (indexed row-then-column). The class
implementing it is not in the source tree; the shape is given by §3 of
the spec. -/
structure BoxSet where
  id : Nat
  bounds : Bounds
  mask : Nat → Nat → Bool

/-- §3 consistency invariant: the mask's true extent never exceeds the
bounds' shape `(y2 − y1, x2 − x1)`. -/
def maskWF (b : BoxSet) : Prop :=
  ∀ yy xx, b.mask yy xx = true →
    yy < b.bounds.y2 - b.bounds.y1 ∧ xx < b.bounds.x2 - b.bounds.x1

/-- Membership of an absolute grid position `(Y, X)` in a BoxSet's mask:
inside the bounds and true in the local mask. -/
def absMask (b : BoxSet) (Y X : Nat) : Bool :=
  decide (b.bounds.y1 ≤ Y) && decide (Y < b.bounds.y2) &&
  decide (b.bounds.x1 ≤ X) && decide (X < b.bounds.x2) &&
  b.mask (Y - b.bounds.y1) (X - b.bounds.x1)

/-- Union bounding box of two bounds. -/
def Bounds.union (a b : Bounds) : Bounds :=
  { x1 := min a.x1 b.x1, y1 := min a.y1 b.y1,
    x2 := max a.x2 b.x2, y2 := max a.y2 b.y2 }

/-- Modelled from the spec: `BoxSet.merge` (the class implementing it is
not in the source tree) — bounds become the union bounding box, the mask
is the logical OR of both masks re-based onto the union bounds, and the
id is the lower of the two input ids. -/
def merge (a b : BoxSet) : BoxSet :=
  let u := a.bounds.union b.bounds
  { id := min a.id b.id
    bounds := u
    mask := fun yy xx =>
      absMask a (u.y1 + yy) (u.x1 + xx) || absMask b (u.y1 + yy) (u.x1 + xx) }

/-- C5: merging is commutative in the resulting bounds and mask, and in
both orders the resulting id is the minimum of the two input ids. -/
theorem C5_merge_comm (a b : BoxSet) :
    (merge a b).bounds = (merge b a).bounds ∧
    (∀ yy xx, (merge a b).mask yy xx = (merge b a).mask yy xx) ∧
    (merge a b).bounds = a.bounds.union b.bounds ∧
    (merge a b).id = min a.id b.id ∧ (merge b a).id = min a.id b.id := by
  have hb : a.bounds.union b.bounds = b.bounds.union a.bounds := by
    simp [Bounds.union, Nat.min_comm, Nat.max_comm]
  refine ⟨by simp [merge, hb], ?_, rfl, rfl, by simp [merge, Nat.min_comm]⟩
  intro yy xx
  simp only [merge, hb]
  exact Bool.or_comm _ _

/-- A caller-owned boolean buffer (a numpy boolean array): explicit
dimensions plus a cell lookup. -/
structure TargetMask where
  H : Nat
  W : Nat
  cells : Nat → Nat → Bool

/-- Modelled from the spec: whether rasterising BoxSet `b` with origin
`(ox, oy)` writes `true` at target position `(Y, X)`: the local mask cell
whose offset position `bounds.topleft + local − origin` lands on `(Y, X)`
must exist and be true. -/
def windowHit (b : BoxSet) (ox oy : Int) (Y X : Nat) : Bool :=
  decide (0 ≤ (Y : Int) + oy - (b.bounds.y1 : Int)) &&
  decide (0 ≤ (X : Int) + ox - (b.bounds.x1 : Int)) &&
  b.mask ((Y : Int) + oy - (b.bounds.y1 : Int)).toNat
    ((X : Int) + ox - (b.bounds.x1 : Int)).toNat

/-- Modelled from the spec: `BoxSet.window(target_mask, origin)` (the
class implementing it is not in the source tree) — writes `true` into the
target mask at the positions where the BoxSet's mask is true, offset by
bounds minus origin; positions outside the target's extent are silently
clipped (the function is total: no error outcome exists). The in-place
mutation of the Python call is embedded as returning the new buffer,
which callers thread onward. -/
def window (b : BoxSet) (ox oy : Int) (tm : TargetMask) : TargetMask :=
  { tm with cells := fun Y X =>
      tm.cells Y X ||
        (decide (Y < tm.H) && decide (X < tm.W) && windowHit b ox oy Y X) }

/-- The full effect of the Python call `boxset.window(target_mask, origin)`
on the pair of objects it can reach: the BoxSet and the buffer. -/
def windowCall (b : BoxSet) (ox oy : Int) (tm : TargetMask) :
    BoxSet × TargetMask :=
  (b, window b ox oy tm)

/-- Pointwise characterisation of a `window` write: a cell of the result
is true exactly when it was already true or a true local mask cell maps
onto it under the offset `bounds − origin` and it lies in the target's
extent. -/
theorem window_cells_iff (b : BoxSet) (ox oy : Int) (tm : TargetMask)
    (Y X : Nat) :
    ((window b ox oy tm).cells Y X = true ↔
      (tm.cells Y X = true ∨ (Y < tm.H ∧ X < tm.W ∧
        ∃ yy xx, b.mask yy xx = true ∧
          (Y : Int) = (b.bounds.y1 : Int) + yy - oy ∧
          (X : Int) = (b.bounds.x1 : Int) + xx - ox))) := by
  simp only [window, windowHit, Bool.or_eq_true, Bool.and_eq_true,
    decide_eq_true_eq]
  constructor
  · rintro (h | ⟨⟨hY, hX⟩, ⟨h1, h2⟩, hm⟩)
    · exact Or.inl h
    · refine Or.inr ⟨hY, hX, _, _, hm, ?_, ?_⟩ <;> omega
  · rintro (h | ⟨hY, hX, yy, xx, hm, hYe, hXe⟩)
    · exact Or.inl h
    · refine Or.inr ⟨⟨hY, hX⟩, ⟨?_, ?_⟩, ?_⟩
      · omega
      · omega
      · have e1 : ((Y : Int) + oy - (b.bounds.y1 : Int)).toNat = yy := by omega
        have e2 : ((X : Int) + ox - (b.bounds.x1 : Int)).toNat = xx := by omega
        rw [e1, e2]; exact hm

/-- C3: a `window` call leaves the BoxSet itself unchanged, leaves the
target buffer's dimensions unchanged, and the resulting buffer is true at
`(Y, X)` exactly when the cell was already true (in-place writes only add)
or some true local mask cell maps there under the offset `bounds − origin`
and `(Y, X)` lies within the target's extent — positions falling outside
the extent are silently clipped, never an error. -/
theorem C3_window_effect (b : BoxSet) (ox oy : Int) (tm : TargetMask) :
    (windowCall b ox oy tm).1 = b ∧
    (windowCall b ox oy tm).2.H = tm.H ∧
    (windowCall b ox oy tm).2.W = tm.W ∧
    ∀ Y X, ((windowCall b ox oy tm).2.cells Y X = true ↔
      (tm.cells Y X = true ∨ (Y < tm.H ∧ X < tm.W ∧
        ∃ yy xx, b.mask yy xx = true ∧
          (Y : Int) = (b.bounds.y1 : Int) + yy - oy ∧
          (X : Int) = (b.bounds.x1 : Int) + xx - ox))) :=
  ⟨rfl, rfl, rfl, fun Y X => window_cells_iff b ox oy tm Y X⟩

/-- An all-false target buffer of the given dimensions. -/
def allFalse (H W : Nat) : TargetMask :=
  { H := H, W := W, cells := fun _ _ => false }

/-- Shared round-trip lemma: rasterising into an all-false buffer of the
bounds' shape with origin at the bounds' top-left corner reproduces the
mask cell-for-cell. -/
theorem window_roundtrip_cells (b : BoxSet) (hWF : maskWF b) :
    ∀ yy xx,
      (window b b.bounds.x1 b.bounds.y1
        (allFalse (b.bounds.y2 - b.bounds.y1)
          (b.bounds.x2 - b.bounds.x1))).cells yy xx = b.mask yy xx := by
  intro yy xx
  simp only [window, allFalse, windowHit, Bool.false_or]
  have e1 : ((yy : Int) + b.bounds.y1 - (b.bounds.y1 : Int)).toNat = yy := by
    omega
  have e2 : ((xx : Int) + b.bounds.x1 - (b.bounds.x1 : Int)).toNat = xx := by
    omega
  rw [e1, e2]
  by_cases hm : b.mask yy xx = true
  · have := hWF yy xx hm
    simp [hm, this.1, this.2]
  · simp only [Bool.not_eq_true] at hm
    simp [hm]

/-- C7: rasterising a BoxSet into an all-false buffer of its bounds' shape
with origin at the bounds' top-left corner, then reading back the same
subregion, reproduces the BoxSet's mask exactly. -/
theorem C7_window_roundtrip (b : BoxSet) (hWF : maskWF b) :
    ∀ yy xx,
      (window b b.bounds.x1 b.bounds.y1
        (allFalse (b.bounds.y2 - b.bounds.y1)
          (b.bounds.x2 - b.bounds.x1))).cells yy xx = b.mask yy xx :=
  window_roundtrip_cells b hWF

/-- A concrete BoxSet used to witness the round-trip theorem: bounds
`(2,3,4,5)` with the anti-diagonal of its 2×2 mask set. -/
def boxExample : BoxSet :=
  { id := 7, bounds := { x1 := 2, y1 := 3, x2 := 4, y2 := 5 },
    mask := fun yy xx => decide (yy + xx = 1) }

theorem C7_window_roundtrip_witness :
    (window boxExample boxExample.bounds.x1 boxExample.bounds.y1
      (allFalse (boxExample.bounds.y2 - boxExample.bounds.y1)
        (boxExample.bounds.x2 - boxExample.bounds.x1))).cells 0 1 =
      boxExample.mask 0 1 :=
  C7_window_roundtrip boxExample
    (by intro yy xx h; simp [boxExample] at h ⊢; omega) 0 1

/-- The expected, recoverable error raised while tracing a BoxSet's
boundary polygon (`sorcerer.boxset.VerticesException`). -/
structure VerticesException where
  msg : String

/-- The fixed header lines `write_annotations` writes before the loop
(output.py lines 48–53); each `f.write` of a string ending in a newline
is one line of the file. -/
def annotationHeader : List String :=
  ["# KARMA ANNOTATION FILE", "", "COORD W", "PA STANDARD", "COLOR GREEN", ""]

/-- One iteration of the `write_annotations` loop body (output.py lines
55–60): try to append every traced line of the BoxSet to the file; on
`VerticesException` append nothing to the file and log one warning. The
tracing itself (`boxset.annotation`, in the module absent from the source
tree) is abstracted as a function returning either all lines or the
exception. -/
def annotationStep {α : Type} (annot : α → Except VerticesException (List String))
    (acc : List String × List String) (b : α) : List String × List String :=
  match annot b with
  | .ok lines => (acc.1 ++ lines, acc.2)
  | .error e => (acc.1, acc.2 ++ ["WARNING: " ++ e.msg])

/-- `write_annotations` (output.py lines 45–62): header lines, then the
per-BoxSet loop. Result: (lines of the annotation file, warnings logged). -/
def write_annotations {α : Type}
    (annot : α → Except VerticesException (List String)) (boxsets : List α) :
    List String × List String :=
  boxsets.foldl (annotationStep annot) (annotationHeader, [])

/-- The warning `write_annotations` logs for a BoxSet, if any. -/
def warnOf {α : Type} (annot : α → Except VerticesException (List String))
    (b : α) : Option String :=
  match annot b with
  | .ok _ => none
  | .error e => some ("WARNING: " ++ e.msg)

theorem write_annotations_fold {α : Type}
    (annot : α → Except VerticesException (List String)) (bs : List α)
    (acc : List String × List String) :
    (bs.foldl (annotationStep annot) acc).1 =
      acc.1 ++ (bs.filterMap (fun b => (annot b).toOption)).flatten ∧
    (bs.foldl (annotationStep annot) acc).2 =
      acc.2 ++ bs.filterMap (warnOf annot) := by
  induction bs generalizing acc with
  | nil => simp
  | cons b bs ih =>
    have := ih (annotationStep annot acc b)
    cases hb : annot b with
    | ok lines =>
      simp only [List.foldl_cons, List.filterMap_cons]
      rw [this.1, this.2]
      simp [annotationStep, warnOf, hb, Except.toOption]
    | error e =>
      simp only [List.foldl_cons, List.filterMap_cons]
      rw [this.1, this.2]
      simp [annotationStep, warnOf, hb, Except.toOption]

/-- C1: if one BoxSet's annotation tracing raises `VerticesException`,
`write_annotations` catches it, logs exactly one warning for it, and
continues: the file still receives the header and the traced lines of
every other BoxSet, in order, and nothing else of the run is affected. -/
theorem C1_annotations_recover {α : Type}
    (annot : α → Except VerticesException (List String))
    (pre post : List α) (bad : α) (e : VerticesException)
    (hbad : annot bad = .error e) :
    (write_annotations annot (pre ++ bad :: post)).1 =
      annotationHeader ++
        ((pre ++ post).filterMap (fun b => (annot b).toOption)).flatten ∧
    (write_annotations annot (pre ++ bad :: post)).2 =
      pre.filterMap (warnOf annot) ++
        ("WARNING: " ++ e.msg) :: post.filterMap (warnOf annot) := by
  have h := write_annotations_fold annot (pre ++ bad :: post)
    (annotationHeader, [])
  unfold write_annotations
  rw [h.1, h.2]
  constructor
  · simp [hbad, Except.toOption]
  · simp [warnOf, hbad]

/-- A concrete annotation function for the witness: BoxSet 0 is
untraceable, every other id traces to one line. -/
def annotExample : Nat → Except VerticesException (List String) :=
  fun n => if n = 0 then .error ⟨"Vertices do not form a closed loop"⟩
    else .ok ["CLINES " ++ toString n]

theorem C1_annotations_recover_witness :
    (write_annotations annotExample ([1] ++ 0 :: [2])).1 =
      annotationHeader ++
        (([1] ++ [2]).filterMap (fun b => (annotExample b).toOption)).flatten ∧
    (write_annotations annotExample ([1] ++ 0 :: [2])).2 =
      [1].filterMap (warnOf annotExample) ++
        ("WARNING: " ++ "Vertices do not form a closed loop") ::
          [2].filterMap (warnOf annotExample) :=
  C1_annotations_recover annotExample [1] [2] 0
    ⟨"Vertices do not form a closed loop"⟩ rfl

/-- A buffer is well-formed when its true cells lie inside its extent. -/
def TargetMask.WF (tm : TargetMask) : Prop :=
  ∀ i j, tm.cells i j = true → i < tm.H ∧ j < tm.W

/-- `|a − b| ≤ m` on naturals, phrased without subtraction. -/
def withinDist (a b m : Nat) : Prop :=
  a ≤ b + m ∧ b ≤ a + m

/-- output.py line 77, `Shift up`: `mask[1:, :] = logical_or(mask[1:, :],
mask[0:-1, :])`.  numpy materialises the right-hand side before the
assignment, so rows `1 ≤ i < H` are updated simultaneously from the old
buffer. -/
def shiftA (tm : TargetMask) : TargetMask :=
  { tm with cells := fun i j =>
      tm.cells i j ||
        (decide (1 ≤ i) && decide (i < tm.H) && decide (j < tm.W) &&
          tm.cells (i - 1) j) }

/-- output.py line 79, `Shift down`: `mask[0:-1, :] = logical_or(
mask[0:-1, :], mask[1:, :])` — rows `i + 1 < H` updated simultaneously. -/
def shiftB (tm : TargetMask) : TargetMask :=
  { tm with cells := fun i j =>
      tm.cells i j ||
        (decide (i + 1 < tm.H) && decide (j < tm.W) && tm.cells (i + 1) j) }

/-- output.py line 81, `Shift right`: `mask[:, 1:] = logical_or(
mask[:, 1:], mask[:, 0:-1])`. -/
def shiftC (tm : TargetMask) : TargetMask :=
  { tm with cells := fun i j =>
      tm.cells i j ||
        (decide (i < tm.H) && decide (1 ≤ j) && decide (j < tm.W) &&
          tm.cells i (j - 1)) }

/-- output.py line 83, `Shift left`: `mask[:, 0:-1] = logical_or(
mask[:, 0:-1], mask[:, 1:])`. -/
def shiftD (tm : TargetMask) : TargetMask :=
  { tm with cells := fun i j =>
      tm.cells i j ||
        (decide (i < tm.H) && decide (j + 1 < tm.W) && tm.cells i (j + 1)) }

/-- One pass of the `Grow the mask` loop body (output.py lines 75–83). -/
def growOnce (tm : TargetMask) : TargetMask :=
  shiftD (shiftC (shiftB (shiftA tm)))

/-- The full `for _ in range(margin)` grow loop (output.py lines 75–83). -/
def grow (margin : Nat) (tm : TargetMask) : TargetMask :=
  growOnce^[margin] tm

/-- The accumulated union mask of output.py lines 70–72:
`mask = np.zeros(img.shape)` then `boxset.window(mask)` for each BoxSet
(default origin `(0, 0)`); each call mutates the buffer in place, which
the embedding renders by threading the buffer through a fold. -/
def unionMask (boxsets : List BoxSet) (H W : Nat) : TargetMask :=
  boxsets.foldl (fun tm b => window b 0 0 tm) (allFalse H W)

/-- output.py line 85: `img[~mask] = np.nan`, applied in place to the
squeezed view of `hdu.data` — pixels inside the array extent and outside
the mask become non-finite, everything else is untouched. -/
def applyCutoutMask (img : Grid) (tm : TargetMask) : Grid :=
  { img with cells := fun y x =>
      if y < img.H ∧ x < img.W then
        (if tm.cells y x then img.cells y x else none)
      else img.cells y x }

/-- `write_cutout` (output.py lines 65–91), restricted to its effect on
the image data: build the union mask of all BoxSets, grow it `margin`
times, and blank every pixel outside it.  `np.squeeze(hdu.data)` is a
view, so the result is also the caller's `hdu.data` after the call. -/
def write_cutout (boxsets : List BoxSet) (img : Grid) (margin : Nat) :
    Grid :=
  applyCutoutMask img (grow margin (unionMask boxsets img.H img.W))

theorem shiftA_dims (tm : TargetMask) :
    (shiftA tm).H = tm.H ∧ (shiftA tm).W = tm.W := ⟨rfl, rfl⟩

theorem growOnce_dims (tm : TargetMask) :
    (growOnce tm).H = tm.H ∧ (growOnce tm).W = tm.W := ⟨rfl, rfl⟩

theorem grow_dims (m : Nat) (tm : TargetMask) :
    (grow m tm).H = tm.H ∧ (grow m tm).W = tm.W := by
  induction m generalizing tm with
  | zero => exact ⟨rfl, rfl⟩
  | succ n ih =>
    unfold grow at *
    rw [Function.iterate_succ_apply]
    exact ih (growOnce tm)

theorem shiftA_WF (tm : TargetMask) (h : tm.WF) : (shiftA tm).WF := by
  intro i j hij
  simp only [shiftA, Bool.or_eq_true, Bool.and_eq_true, decide_eq_true_eq] at hij
  rcases hij with hij | ⟨⟨⟨_, h1⟩, h2⟩, _⟩
  · exact h i j hij
  · exact ⟨h1, h2⟩

theorem shiftB_WF (tm : TargetMask) (h : tm.WF) : (shiftB tm).WF := by
  intro i j hij
  simp only [shiftB, Bool.or_eq_true, Bool.and_eq_true, decide_eq_true_eq] at hij
  rcases hij with hij | ⟨⟨h1, h2⟩, _⟩
  · exact h i j hij
  · exact ⟨Nat.lt_of_succ_lt h1, h2⟩

theorem shiftC_WF (tm : TargetMask) (h : tm.WF) : (shiftC tm).WF := by
  intro i j hij
  simp only [shiftC, Bool.or_eq_true, Bool.and_eq_true, decide_eq_true_eq] at hij
  rcases hij with hij | ⟨⟨⟨h1, _⟩, h2⟩, _⟩
  · exact h i j hij
  · exact ⟨h1, h2⟩

theorem shiftD_WF (tm : TargetMask) (h : tm.WF) : (shiftD tm).WF := by
  intro i j hij
  simp only [shiftD, Bool.or_eq_true, Bool.and_eq_true, decide_eq_true_eq] at hij
  rcases hij with hij | ⟨⟨h1, h2⟩, _⟩
  · exact h i j hij
  · exact ⟨h1, Nat.lt_of_succ_lt h2⟩

theorem growOnce_WF (tm : TargetMask) (h : tm.WF) : (growOnce tm).WF :=
  shiftD_WF _ (shiftC_WF _ (shiftB_WF _ (shiftA_WF _ h)))

theorem grow_WF (m : Nat) (tm : TargetMask) (h : tm.WF) : (grow m tm).WF := by
  induction m generalizing tm with
  | zero => exact h
  | succ n ih =>
    unfold grow at *
    rw [Function.iterate_succ_apply]
    exact ih (growOnce tm) (growOnce_WF tm h)

/-- A single step from `a` toward `b`. -/
def stepToward (a b : Nat) : Nat :=
  if b < a then a - 1 else if a < b then a + 1 else a

theorem vpair_cells_iff (tm : TargetMask) (i j : Nat)
    (hi : i < tm.H) (hj : j < tm.W) :
    ((shiftB (shiftA tm)).cells i j = true ↔
      ∃ i2, i2 < tm.H ∧ tm.cells i2 j = true ∧ withinDist i i2 1) := by
  simp only [shiftB, shiftA, Bool.or_eq_true, Bool.and_eq_true,
    decide_eq_true_eq]
  constructor
  · rintro ((h | ⟨⟨⟨h1, _⟩, _⟩, hc⟩) | ⟨⟨hB1, _⟩, (hc | ⟨_, hc⟩)⟩)
    · exact ⟨i, hi, h, by unfold withinDist; omega⟩
    · exact ⟨i - 1, by omega, hc, by unfold withinDist; omega⟩
    · exact ⟨i + 1, hB1, hc, by unfold withinDist; omega⟩
    · exact ⟨i, hi, hc, by unfold withinDist; omega⟩
  · rintro ⟨i2, h2, hc, hd⟩
    unfold withinDist at hd
    have hcase : i2 = i ∨ i2 + 1 = i ∨ i2 = i + 1 := by omega
    rcases hcase with hcase | hcase | hcase
    · subst hcase; exact Or.inl (Or.inl hc)
    · refine Or.inl (Or.inr ⟨⟨⟨by omega, hi⟩, hj⟩, ?_⟩)
      have e : i - 1 = i2 := by omega
      rw [e]; exact hc
    · subst hcase
      exact Or.inr ⟨⟨h2, hj⟩, Or.inl hc⟩

theorem hpair_cells_iff (tm : TargetMask) (i j : Nat)
    (hi : i < tm.H) (hj : j < tm.W) :
    ((shiftD (shiftC tm)).cells i j = true ↔
      ∃ j2, j2 < tm.W ∧ tm.cells i j2 = true ∧ withinDist j j2 1) := by
  simp only [shiftD, shiftC, Bool.or_eq_true, Bool.and_eq_true,
    decide_eq_true_eq]
  constructor
  · rintro ((h | ⟨⟨⟨_, h1⟩, _⟩, hc⟩) | ⟨⟨_, hB1⟩, (hc | ⟨_, hc⟩)⟩)
    · exact ⟨j, hj, h, by unfold withinDist; omega⟩
    · exact ⟨j - 1, by omega, hc, by unfold withinDist; omega⟩
    · exact ⟨j + 1, hB1, hc, by unfold withinDist; omega⟩
    · exact ⟨j, hj, hc, by unfold withinDist; omega⟩
  · rintro ⟨j2, h2, hc, hd⟩
    unfold withinDist at hd
    have hcase : j2 = j ∨ j2 + 1 = j ∨ j2 = j + 1 := by omega
    rcases hcase with hcase | hcase | hcase
    · subst hcase; exact Or.inl (Or.inl hc)
    · refine Or.inl (Or.inr ⟨⟨⟨hi, by omega⟩, hj⟩, ?_⟩)
      have e : j - 1 = j2 := by omega
      rw [e]; exact hc
    · subst hcase
      exact Or.inr ⟨⟨hi, h2⟩, Or.inl hc⟩

theorem growOnce_cells_iff (tm : TargetMask) (i j : Nat)
    (hi : i < tm.H) (hj : j < tm.W) :
    ((growOnce tm).cells i j = true ↔
      ∃ i2 j2, i2 < tm.H ∧ j2 < tm.W ∧ tm.cells i2 j2 = true ∧
        withinDist i i2 1 ∧ withinDist j j2 1) := by
  unfold growOnce
  rw [hpair_cells_iff (shiftB (shiftA tm)) i j hi hj]
  constructor
  · rintro ⟨j2, hj2, hc, hdj⟩
    rw [vpair_cells_iff tm i j2 hi hj2] at hc
    obtain ⟨i2, hi2, hc2, hdi⟩ := hc
    exact ⟨i2, j2, hi2, hj2, hc2, hdi, hdj⟩
  · rintro ⟨i2, j2, hi2, hj2, hc, hdi, hdj⟩
    refine ⟨j2, hj2, ?_, hdj⟩
    rw [vpair_cells_iff tm i j2 hi hj2]
    exact ⟨i2, hi2, hc, hdi⟩

theorem grow_cells_iff (m : Nat) (tm : TargetMask) (i j : Nat)
    (hi : i < tm.H) (hj : j < tm.W) :
    ((grow m tm).cells i j = true ↔
      ∃ i2 j2, i2 < tm.H ∧ j2 < tm.W ∧ tm.cells i2 j2 = true ∧
        withinDist i i2 m ∧ withinDist j j2 m) := by
  induction m generalizing i j with
  | zero =>
    unfold grow
    rw [Function.iterate_zero_apply]
    constructor
    · intro h
      exact ⟨i, j, hi, hj, h, by unfold withinDist; omega,
        by unfold withinDist; omega⟩
    · rintro ⟨i2, j2, _, _, hc, hdi, hdj⟩
      unfold withinDist at hdi hdj
      have e1 : i2 = i := by omega
      have e2 : j2 = j := by omega
      subst e1; subst e2; exact hc
  | succ n ih =>
    have hstep : grow (n + 1) tm = growOnce (grow n tm) := by
      unfold grow
      rw [Function.iterate_succ_apply']
    have hd := grow_dims n tm
    rw [hstep]
    have hi' : i < (grow n tm).H := by rw [hd.1]; exact hi
    have hj' : j < (grow n tm).W := by rw [hd.2]; exact hj
    rw [growOnce_cells_iff (grow n tm) i j hi' hj']
    constructor
    · rintro ⟨mi, mj, hmi, hmj, hc, hdi, hdj⟩
      rw [hd.1] at hmi
      rw [hd.2] at hmj
      rw [ih mi mj hmi hmj] at hc
      obtain ⟨i2, j2, hi2, hj2, hc2, hdi2, hdj2⟩ := hc
      refine ⟨i2, j2, hi2, hj2, hc2, ?_, ?_⟩ <;>
        (unfold withinDist at *; omega)
    · rintro ⟨i2, j2, hi2, hj2, hc, hdi, hdj⟩
      refine ⟨stepToward i i2, stepToward j j2, ?_, ?_, ?_, ?_, ?_⟩
      · rw [hd.1]; unfold stepToward; split_ifs <;> omega
      · rw [hd.2]; unfold stepToward; split_ifs <;> omega
      · rw [ih (stepToward i i2) (stepToward j j2)
          (by unfold stepToward; split_ifs <;> omega)
          (by unfold stepToward; split_ifs <;> omega)]
        refine ⟨i2, j2, hi2, hj2, hc, ?_, ?_⟩ <;>
          (unfold withinDist stepToward at *; split_ifs <;> omega)
      · unfold withinDist stepToward at *; split_ifs <;> omega
      · unfold withinDist stepToward at *; split_ifs <;> omega

/-- Coverage of an absolute grid position by a BoxSet's mask: some true
local mask cell sits there once offset by the bounds' top-left corner. -/
def coveredPos (b : BoxSet) (Y X : Nat) : Prop :=
  ∃ yy xx, b.mask yy xx = true ∧ Y = b.bounds.y1 + yy ∧ X = b.bounds.x1 + xx

theorem window_zero_cells_iff (b : BoxSet) (tm : TargetMask) (Y X : Nat) :
    ((window b 0 0 tm).cells Y X = true ↔
      (tm.cells Y X = true ∨ (Y < tm.H ∧ X < tm.W ∧ coveredPos b Y X))) := by
  rw [window_cells_iff]
  unfold coveredPos
  constructor
  · rintro (h | ⟨hY, hX, yy, xx, hm, h1, h2⟩)
    · exact Or.inl h
    · exact Or.inr ⟨hY, hX, yy, xx, hm, by omega, by omega⟩
  · rintro (h | ⟨hY, hX, yy, xx, hm, h1, h2⟩)
    · exact Or.inl h
    · exact Or.inr ⟨hY, hX, yy, xx, hm, by omega, by omega⟩

theorem foldWindow_dims (bs : List BoxSet) (tm : TargetMask) :
    ((bs.foldl (fun t b => window b 0 0 t) tm).H = tm.H ∧
     (bs.foldl (fun t b => window b 0 0 t) tm).W = tm.W) := by
  induction bs generalizing tm with
  | nil => exact ⟨rfl, rfl⟩
  | cons b bs ih =>
    simp only [List.foldl_cons]
    exact ih (window b 0 0 tm)

theorem foldWindow_cells_iff (bs : List BoxSet) (tm : TargetMask)
    (Y X : Nat) :
    ((bs.foldl (fun t b => window b 0 0 t) tm).cells Y X = true ↔
      (tm.cells Y X = true ∨
        (Y < tm.H ∧ X < tm.W ∧ ∃ b ∈ bs, coveredPos b Y X))) := by
  induction bs generalizing tm with
  | nil => simp
  | cons b bs ih =>
    simp only [List.foldl_cons]
    rw [ih (window b 0 0 tm)]
    rw [window_zero_cells_iff]
    constructor
    · rintro ((h | ⟨hY, hX, hcov⟩) | ⟨hY, hX, b2, hb2, hcov⟩)
      · exact Or.inl h
      · exact Or.inr ⟨hY, hX, b, List.mem_cons_self b bs, hcov⟩
      · exact Or.inr ⟨hY, hX, b2, List.mem_cons_of_mem b hb2, hcov⟩
    · rintro (h | ⟨hY, hX, b2, hb2, hcov⟩)
      · exact Or.inl (Or.inl h)
      · rcases List.mem_cons.mp hb2 with he | he
        · subst he; exact Or.inl (Or.inr ⟨hY, hX, hcov⟩)
        · exact Or.inr ⟨hY, hX, b2, he, hcov⟩

theorem unionMask_dims (bs : List BoxSet) (H W : Nat) :
    (unionMask bs H W).H = H ∧ (unionMask bs H W).W = W :=
  foldWindow_dims bs (allFalse H W)

theorem unionMask_cells_iff (bs : List BoxSet) (H W Y X : Nat) :
    ((unionMask bs H W).cells Y X = true ↔
      (Y < H ∧ X < W ∧ ∃ b ∈ bs, coveredPos b Y X)) := by
  unfold unionMask
  rw [foldWindow_cells_iff]
  simp [allFalse]

/-- A pixel lies within Chebyshev distance `m` of some in-extent pixel
covered by some BoxSet's mask. -/
def nearCovered (bs : List BoxSet) (H W m Y X : Nat) : Prop :=
  ∃ Y2 X2, Y2 < H ∧ X2 < W ∧ (∃ b ∈ bs, coveredPos b Y2 X2) ∧
    withinDist Y Y2 m ∧ withinDist X X2 m

theorem grownMask_iff (bs : List BoxSet) (H W m Y X : Nat)
    (hY : Y < H) (hX : X < W) :
    ((grow m (unionMask bs H W)).cells Y X = true ↔
      nearCovered bs H W m Y X) := by
  have hd := unionMask_dims bs H W
  have hY' : Y < (unionMask bs H W).H := by rw [hd.1]; exact hY
  have hX' : X < (unionMask bs H W).W := by rw [hd.2]; exact hX
  rw [grow_cells_iff m (unionMask bs H W) Y X hY' hX']
  unfold nearCovered
  constructor
  · rintro ⟨Y2, X2, hY2, hX2, hc, hdY, hdX⟩
    rw [unionMask_cells_iff] at hc
    exact ⟨Y2, X2, hc.1, hc.2.1, hc.2.2, hdY, hdX⟩
  · rintro ⟨Y2, X2, hY2, hX2, hc, hdY, hdX⟩
    refine ⟨Y2, X2, by rw [hd.1]; exact hY2, by rw [hd.2]; exact hX2, ?_,
      hdY, hdX⟩
    rw [unionMask_cells_iff]
    exact ⟨hY2, hX2, hc⟩

/-- C2: in the image `write_cutout` produces, an in-extent pixel keeps its
original Grid value exactly when it lies within Chebyshev distance
`margin` of some in-extent pixel covered by some BoxSet's mask (the union
of the masks dilated `margin` times by a 3×3 neighbourhood, clipped at the
grid border); every other in-extent pixel is set to NaN. -/
theorem C2_cutout_keeps_iff_near (bs : List BoxSet) (img : Grid)
    (m y x : Nat) (hy : y < img.H) (hx : x < img.W) :
    ((nearCovered bs img.H img.W m y x →
        (write_cutout bs img m).cells y x = img.cells y x) ∧
     (¬ nearCovered bs img.H img.W m y x →
        (write_cutout bs img m).cells y x = none)) := by
  unfold write_cutout applyCutoutMask
  simp only [if_pos (And.intro hy hx)]
  have hiff := grownMask_iff bs img.H img.W m y x hy hx
  constructor
  · intro hnear
    rw [if_pos (hiff.mpr hnear)]
  · intro hnear
    rcases hb : (grow m (unionMask bs img.H img.W)).cells y x with _ | _
    · simp
    · exact absurd (hiff.mp hb) hnear

/-- A 6×6 all-ones image used by the cutout witnesses. -/
def imgExample : Grid :=
  { H := 6, W := 6, cells := fun _ _ => some 1 }

theorem C2_cutout_keeps_iff_near_witness :
    ((nearCovered [boxExample] imgExample.H imgExample.W 1 0 0 →
        (write_cutout [boxExample] imgExample 1).cells 0 0 =
          imgExample.cells 0 0) ∧
     (¬ nearCovered [boxExample] imgExample.H imgExample.W 1 0 0 →
        (write_cutout [boxExample] imgExample 1).cells 0 0 = none)) :=
  C2_cutout_keeps_iff_near [boxExample] imgExample 1 0 0 (by decide)
    (by decide)

/-- C9 (amended): `write_cutout` rewrites the caller's `hdu.data` through
the squeezed view: each in-extent pixel outside the grown mask becomes
NaN, pixels inside it keep their value, pixels outside the array extent
do not exist and stay untouched; consequently the data after the call
differs from the original Grid whenever some in-extent pixel outside the
grown mask held a non-NaN value. -/
theorem C9_cutout_inplace (bs : List BoxSet) (img : Grid) (m : Nat) :
    (∀ y x, y < img.H → x < img.W →
      (grow m (unionMask bs img.H img.W)).cells y x = true →
      (write_cutout bs img m).cells y x = img.cells y x) ∧
    (∀ y x, y < img.H → x < img.W →
      (grow m (unionMask bs img.H img.W)).cells y x = false →
      (write_cutout bs img m).cells y x = none) ∧
    (∀ y x, y ≥ img.H ∨ x ≥ img.W →
      (write_cutout bs img m).cells y x = img.cells y x) ∧
    (∀ y x, y < img.H → x < img.W →
      (grow m (unionMask bs img.H img.W)).cells y x = false →
      img.cells y x ≠ none → write_cutout bs img m ≠ img) := by
  refine ⟨?_, ?_, ?_, ?_⟩
  · intro y x hy hx hg
    unfold write_cutout applyCutoutMask
    simp only [if_pos (And.intro hy hx), hg, if_true]
  · intro y x hy hx hg
    unfold write_cutout applyCutoutMask
    simp only [if_pos (And.intro hy hx), hg]
    simp
  · intro y x hout
    unfold write_cutout applyCutoutMask
    simp only []
    rw [if_neg (by omega)]
  · intro y x hy hx hg hne heq
    have h2 : (write_cutout bs img m).cells y x = none := by
      unfold write_cutout applyCutoutMask
      simp only [if_pos (And.intro hy hx), hg]
      simp
    rw [heq] at h2
    exact hne h2

theorem C9_cutout_inplace_witness :
    write_cutout [boxExample] imgExample 0 ≠ imgExample :=
  (C9_cutout_inplace [boxExample] imgExample 0).2.2.2 0 0 (by decide)
    (by decide) (by decide) (by decide)

/-- A 1×1 image whose single pixel is finite. -/
def gridOne : Grid :=
  { H := 1, W := 1, cells := fun _ _ => some 1 }

/-- A BoxSet whose mask covers the whole 1×1 image. -/
def boxFull : BoxSet :=
  { id := 0, bounds := { x1 := 0, y1 := 0, x2 := 1, y2 := 1 },
    mask := fun yy xx => decide (yy = 0 ∧ xx = 0) }

/-- Counterexample to C9 as stated: when the grown mask covers every
in-extent pixel, `write_cutout` leaves `hdu.data` equal to the original
Grid, so "after the call hdu.data no longer equals the original Grid"
does not hold universally. -/
theorem C9_counterexample :
    write_cutout [boxFull] gridOne 0 = gridOne := by
  unfold write_cutout applyCutoutMask
  congr 1
  funext y x
  by_cases h : y < gridOne.H ∧ x < gridOne.W
  · rw [if_pos h]
    have hy : y = 0 := by
      have := h.1
      simp only [gridOne] at this
      omega
    have hx : x = 0 := by
      have := h.2
      simp only [gridOne] at this
      omega
    subst hy; subst hx
    have hg : (grow 0 (unionMask [boxFull] gridOne.H gridOne.W)).cells 0 0 =
        true := by decide
    rw [hg]
    simp [gridOne]
  · rw [if_neg h]
    simp [gridOne]

/-- output.py lines 23–26: `mask = np.zeros((Y, X))` followed by
`mask = boxset.window(mask, origin=(bounds.x1, bounds.y1))`. -/
def catalogMask (b : BoxSet) : TargetMask :=
  window b b.bounds.x1 b.bounds.y1
    (allFalse (b.bounds.y2 - b.bounds.y1) (b.bounds.x2 - b.bounds.x1))

/-- Row-major enumeration of the local coordinates of the window region
`(y2 − y1) × (x2 − x1)`, the order in which numpy flattens the array. -/
def localCells (b : BoxSet) : List (Nat × Nat) :=
  ((List.range (b.bounds.y2 - b.bounds.y1)).map (fun yy =>
    (List.range (b.bounds.x2 - b.bounds.x1)).map (fun xx => (yy, xx)))).flatten

/-- output.py lines 27–28: `ma.array(img[y1:y2, x1:x2], mask=~mask)
.compressed()` — the row-major list of image values at the positions
where the windowed mask is true. -/
def source (b : BoxSet) (img : Grid) : List (Option ℚ) :=
  (localCells b).filterMap (fun p =>
    if (catalogMask b).cells p.1 p.2 then
      some (img.cells (b.bounds.y1 + p.1) (b.bounds.x1 + p.2)) else none)

/-- Row-major list of the BoxSet's true local mask cells. -/
def maskCellsList (b : BoxSet) : List (Nat × Nat) :=
  (localCells b).filter (fun p => b.mask p.1 p.2)

/-- The finite Grid values at the BoxSet's true mask cells, row-major. -/
def maskVals (b : BoxSet) (img : Grid) : List ℚ :=
  (maskCellsList b).map (fun p =>
    gval img (b.bounds.y1 + p.1) (b.bounds.x1 + p.2))

/-- Float addition step of `source.sum()`: any non-finite summand poisons
the total. -/
def sumStep (acc v : Option ℚ) : Option ℚ :=
  match acc, v with
  | some a, some b => some (a + b)
  | _, _ => none

/-- `source.sum()` (output.py line 30); an empty array sums to zero. -/
def optSum (l : List (Option ℚ)) : Option ℚ :=
  l.foldl sumStep (some 0)

/-- Float maximum step of `source.max()`. -/
def maxStep (acc v : Option ℚ) : Option ℚ :=
  match acc, v with
  | some a, some b => some (max a b)
  | _, _ => none

/-- `source.max()` (output.py line 32); undefined on an empty array. -/
def optMax : List (Option ℚ) → Option ℚ
  | [] => none
  | v :: rest => rest.foldl maxStep v

/-- `total_flux = source.sum()` (output.py line 30). -/
def total_flux (b : BoxSet) (img : Grid) : Option ℚ :=
  optSum (source b img)

/-- `integrated_flux = total_flux / beamarea` (output.py line 31). -/
def integrated_flux (b : BoxSet) (img : Grid) (beam : ℚ) : Option ℚ :=
  (total_flux b img).map (fun t => t / beam)

/-- `peak_flux = source.max()` (output.py line 32). -/
def peak_flux (b : BoxSet) (img : Grid) : Option ℚ :=
  optMax (source b img)

theorem filterMap_if_eq_filter_map {α β : Type} (l : List α) (p : α → Bool)
    (f : α → β) :
    l.filterMap (fun a => if p a then some (f a) else none) =
      (l.filter p).map f := by
  induction l with
  | nil => rfl
  | cons a l ih =>
    by_cases h : p a = true
    · simp [List.filterMap_cons, List.filter_cons, h, ih]
    · simp only [Bool.not_eq_true] at h
      simp [List.filterMap_cons, List.filter_cons, h, ih]

theorem mem_localCells (b : BoxSet) (yy xx : Nat)
    (h1 : yy < b.bounds.y2 - b.bounds.y1)
    (h2 : xx < b.bounds.x2 - b.bounds.x1) :
    (yy, xx) ∈ localCells b := by
  simp only [localCells, List.mem_flatten, List.mem_map, List.mem_range]
  exact ⟨(List.range (b.bounds.x2 - b.bounds.x1)).map (fun xx => (yy, xx)),
    ⟨yy, h1, rfl⟩, by simp only [List.mem_map, List.mem_range]; exact ⟨xx, h2, rfl⟩⟩

theorem optSum_foldl (l : List ℚ) (a : ℚ) :
    (l.map some).foldl sumStep (some a) = some (a + l.sum) := by
  induction l generalizing a with
  | nil => simp
  | cons b l ih =>
    simp only [List.map_cons, List.foldl_cons, sumStep, List.sum_cons]
    rw [ih (a + b)]
    ring_nf

theorem optSum_map_some (l : List ℚ) : optSum (l.map some) = some l.sum := by
  unfold optSum
  rw [optSum_foldl]
  rw [zero_add]

theorem optMax_foldl (l : List ℚ) (a : ℚ) :
    (l.map some).foldl maxStep (some a) = some (l.foldl max a) := by
  induction l generalizing a with
  | nil => simp
  | cons b l ih =>
    simp only [List.map_cons, List.foldl_cons, maxStep]
    rw [ih (max a b)]

theorem foldl_max_mem (a : ℚ) (l : List ℚ) : l.foldl max a ∈ a :: l := by
  induction l generalizing a with
  | nil => simp
  | cons b l ih =>
    simp only [List.foldl_cons]
    rcases List.mem_cons.mp (ih (max a b)) with h | h
    · rcases max_choice a b with hc | hc
      · rw [h, hc]; exact List.mem_cons_self _ _
      · rw [h, hc]
        exact List.mem_cons_of_mem _ (List.mem_cons_self _ _)
    · exact List.mem_cons_of_mem _ (List.mem_cons_of_mem _ h)

theorem le_foldl_max (a : ℚ) (l : List ℚ) :
    ∀ v ∈ a :: l, v ≤ l.foldl max a := by
  induction l generalizing a with
  | nil =>
    intro v hv
    simp only [List.mem_singleton] at hv
    simp [hv]
  | cons b l ih =>
    intro v hv
    simp only [List.foldl_cons]
    rcases List.mem_cons.mp hv with hv | hv
    · calc v = a := hv
        _ ≤ max a b := le_max_left a b
        _ ≤ l.foldl max (max a b) :=
            ih (max a b) _ (List.mem_cons_self _ _)
    · rcases List.mem_cons.mp hv with hv | hv
      · calc v = b := hv
          _ ≤ max a b := le_max_right a b
          _ ≤ l.foldl max (max a b) :=
              ih (max a b) _ (List.mem_cons_self _ _)
      · exact ih (max a b) v (List.mem_cons_of_mem _ hv)

theorem source_eq_cells (b : BoxSet) (img : Grid) (hWF : maskWF b) :
    source b img = (maskCellsList b).map (fun p =>
      img.cells (b.bounds.y1 + p.1) (b.bounds.x1 + p.2)) := by
  unfold source
  have hf : (fun p : Nat × Nat =>
      if (catalogMask b).cells p.1 p.2 then
        some (img.cells (b.bounds.y1 + p.1) (b.bounds.x1 + p.2)) else none) =
      (fun p : Nat × Nat =>
        if b.mask p.1 p.2 then
          some (img.cells (b.bounds.y1 + p.1) (b.bounds.x1 + p.2)) else none) := by
    funext p
    rw [show (catalogMask b).cells p.1 p.2 = b.mask p.1 p.2 from
      window_roundtrip_cells b hWF p.1 p.2]
  rw [hf]
  exact filterMap_if_eq_filter_map (localCells b) (fun p => b.mask p.1 p.2) _

theorem source_eq_vals (b : BoxSet) (img : Grid) (hWF : maskWF b)
    (hfin : ∀ yy xx, b.mask yy xx = true →
      ∃ q, img.cells (b.bounds.y1 + yy) (b.bounds.x1 + xx) = some q) :
    source b img = (maskVals b img).map some := by
  rw [source_eq_cells b img hWF]
  unfold maskVals
  rw [List.map_map]
  refine List.map_congr_left fun p hp => ?_
  have hm : b.mask p.1 p.2 = true := by
    have := List.mem_filter.mp hp
    exact this.2
  obtain ⟨q, hq⟩ := hfin p.1 p.2 hm
  simp [Function.comp, hq, gval]

theorem maskVals_ne_nil (b : BoxSet) (img : Grid) (hWF : maskWF b)
    (hne : ∃ yy xx, b.mask yy xx = true) :
    maskVals b img ≠ [] := by
  obtain ⟨yy, xx, hm⟩ := hne
  have hin : (yy, xx) ∈ maskCellsList b := by
    refine List.mem_filter.mpr ⟨?_, hm⟩
    have hb := hWF yy xx hm
    exact mem_localCells b yy xx hb.1 hb.2
  unfold maskVals
  intro hcon
  rw [List.map_eq_nil_iff] at hcon
  rw [hcon] at hin
  exact List.not_mem_nil _ hin

/-- C8: under the spec's bounds/mask consistency invariants (mask within
bounds, only finite Grid values under the mask, at least one mask cell),
the compressed `source` array of a `write_catalog` row holds exactly the
Grid values at the BoxSet's true mask cells in row-major order; hence
Total Flux is their sum, Peak Flux is their maximum, and Integrated Flux
is Total Flux divided by the beam area. -/
theorem C8_catalog_fluxes (b : BoxSet) (img : Grid) (beam : ℚ)
    (hWF : maskWF b)
    (hfin : ∀ yy xx, b.mask yy xx = true →
      ∃ q, img.cells (b.bounds.y1 + yy) (b.bounds.x1 + xx) = some q)
    (hne : ∃ yy xx, b.mask yy xx = true) :
    source b img = (maskCellsList b).map (fun p =>
      img.cells (b.bounds.y1 + p.1) (b.bounds.x1 + p.2)) ∧
    total_flux b img = some (maskVals b img).sum ∧
    integrated_flux b img beam = some ((maskVals b img).sum / beam) ∧
    ∃ q, peak_flux b img = some q ∧ q ∈ maskVals b img ∧
      ∀ v ∈ maskVals b img, v ≤ q := by
  have hsrc := source_eq_vals b img hWF hfin
  have htot : total_flux b img = some (maskVals b img).sum := by
    unfold total_flux
    rw [hsrc, optSum_map_some]
  refine ⟨source_eq_cells b img hWF, htot, ?_, ?_⟩
  · unfold integrated_flux
    rw [htot]
    rfl
  · obtain ⟨v, rest, hvr⟩ : ∃ v rest, maskVals b img = v :: rest := by
      cases hv : maskVals b img with
      | nil => exact absurd hv (maskVals_ne_nil b img hWF hne)
      | cons v rest => exact ⟨v, rest, rfl⟩
    refine ⟨rest.foldl max v, ?_, ?_, ?_⟩
    · unfold peak_flux
      rw [hsrc, hvr]
      simp only [List.map_cons, optMax]
      exact optMax_foldl rest v
    · rw [hvr]; exact foldl_max_mem v rest
    · rw [hvr]; exact le_foldl_max v rest

theorem C8_catalog_fluxes_witness :
    source boxExample imgExample = (maskCellsList boxExample).map (fun p =>
      imgExample.cells (boxExample.bounds.y1 + p.1)
        (boxExample.bounds.x1 + p.2)) ∧
    total_flux boxExample imgExample =
      some (maskVals boxExample imgExample).sum ∧
    integrated_flux boxExample imgExample 2 =
      some ((maskVals boxExample imgExample).sum / 2) ∧
    ∃ q, peak_flux boxExample imgExample = some q ∧
      q ∈ maskVals boxExample imgExample ∧
      ∀ v ∈ maskVals boxExample imgExample, v ≤ q :=
  C8_catalog_fluxes boxExample imgExample 2
    (by intro yy xx h; simp [boxExample] at h ⊢; omega)
    (by intro yy xx h; exact ⟨1, rfl⟩)
    ⟨0, 1, by decide⟩

/-- The data `WCSHelper` reads: the `BMAJ` and `BMIN` header cards and
the two pixel scales `wcs.wcs.cdelt[0]`, `wcs.wcs.cdelt[1]` that astropy
derives from the header. Values live in idealised reals, abstracting from
float rounding. -/
structure WCSHelper where
  BMAJ : ℝ
  BMIN : ℝ
  cdelt0 : ℝ
  cdelt1 : ℝ

/-- `WCSHelper.beamarea_pix` (wcs_helper.py lines 10–17):
`beamsigma1 = BMAJ / cdelt[0]`, `beamsigma2 = BMIN / cdelt[0]`, result
`pi * beamsigma1 * beamsigma2 / (4 * log 2)`. -/
noncomputable def beamarea_pix (h : WCSHelper) : ℝ :=
  let beamsigma1 := h.BMAJ / h.cdelt0
  let beamsigma2 := h.BMIN / h.cdelt0
  (Real.pi * beamsigma1 * beamsigma2) / (4 * Real.log 2)

/-- C10: `beamarea_pix` returns `π · (BMAJ / cdelt[0]) · (BMIN / cdelt[0])
/ (4 ln 2)` — both beam axes are divided by the first-axis pixel scale
`cdelt[0]`; the result never depends on `cdelt[1]`. -/
theorem C10_beamarea_pix (h : WCSHelper) :
    beamarea_pix h =
      Real.pi * (h.BMAJ / h.cdelt0) * (h.BMIN / h.cdelt0) /
        (4 * Real.log 2) ∧
    ∀ h2 : WCSHelper, h2.BMAJ = h.BMAJ → h2.BMIN = h.BMIN →
      h2.cdelt0 = h.cdelt0 → beamarea_pix h2 = beamarea_pix h := by
  constructor
  · rfl
  · intro h2 e1 e2 e3
    unfold beamarea_pix
    rw [e1, e2, e3]

/-- Two headers differing only in `cdelt[1]`, used by the C10 witness. -/
noncomputable def wcsExample : WCSHelper :=
  { BMAJ := 2, BMIN := 1, cdelt0 := 3, cdelt1 := 5 }

/-- Same beam and first-axis scale as `wcsExample`, other `cdelt[1]`. -/
noncomputable def wcsExample2 : WCSHelper :=
  { BMAJ := 2, BMIN := 1, cdelt0 := 3, cdelt1 := 7 }

theorem C10_beamarea_pix_witness :
    beamarea_pix wcsExample2 = beamarea_pix wcsExample :=
  (C10_beamarea_pix wcsExample).2 wcsExample2 rfl rfl rfl

/-- In-grid pixel positions of a Grid. -/
abbrev SPos (g : Grid) := Fin g.H × Fin g.W

instance (a b m : Nat) : Decidable (withinDist a b m) := by
  unfold withinDist
  infer_instance

/-- Modelled from the spec (§4.2 step 1; Search is not in the source
tree): a pixel qualifies when its value is finite and exceeds the
(possibly locally adaptive) threshold at that pixel. -/
def qualifies (g : Grid) (thr : Nat → Nat → ℚ) (p : SPos g) : Bool :=
  match g.cells p.1.1 p.2.1 with
  | none => false
  | some v => decide (thr p.1.1 p.2.1 < v)

/-- 8-connectivity (§4.2 step 2): distinct pixels within Chebyshev
distance one of each other. -/
def adj {g : Grid} (p q : SPos g) : Bool :=
  decide (p ≠ q) && decide (withinDist p.1.1 q.1.1 1) &&
    decide (withinDist p.2.1 q.2.1 1)

/-- Modelled from the spec: one expansion step of the flood fill — add
every qualifying pixel adjacent to the set being grown. -/
def compGrow (g : Grid) (thr : Nat → Nat → ℚ) (S : Finset (SPos g)) :
    Finset (SPos g) :=
  S ∪ Finset.univ.filter
    (fun p => qualifies g thr p = true ∧ ∃ q ∈ S, adj q p = true)

/-- Modelled from the spec: the connected component grown from seed `s` —
the flood fill saturates within (number of pixels) many steps. -/
def comp (g : Grid) (thr : Nat → Nat → ℚ) (s : SPos g) : Finset (SPos g) :=
  (compGrow g thr)^[Fintype.card (SPos g)] {s}

theorem subset_compGrow (g : Grid) (thr : Nat → Nat → ℚ)
    (S : Finset (SPos g)) : S ⊆ compGrow g thr S :=
  Finset.subset_union_left

theorem subset_compGrow_iterate (g : Grid) (thr : Nat → Nat → ℚ)
    (S : Finset (SPos g)) (k : Nat) : S ⊆ (compGrow g thr)^[k] S := by
  induction k with
  | zero => exact Finset.Subset.refl S
  | succ n ih =>
    rw [Function.iterate_succ_apply']
    exact ih.trans (subset_compGrow g thr _)

theorem comp_mem_self (g : Grid) (thr : Nat → Nat → ℚ) (s : SPos g) :
    s ∈ comp g thr s :=
  subset_compGrow_iterate g thr {s} (Fintype.card (SPos g))
    (Finset.mem_singleton_self s)

theorem compGrow_card_stab (g : Grid) (thr : Nat → Nat → ℚ)
    (S : Finset (SPos g)) (k : Nat) :
    ((compGrow g thr)^[k + 1] S = (compGrow g thr)^[k] S) ∨
      (S.card + k ≤ ((compGrow g thr)^[k] S).card) := by
  induction k with
  | zero => simp
  | succ n ih =>
    rcases ih with h | h
    · left
      rw [Function.iterate_succ_apply'] at h
      rw [Function.iterate_succ_apply', Function.iterate_succ_apply', h]
      exact h
    · by_cases heq : (compGrow g thr)^[n + 1] S = (compGrow g thr)^[n] S
      · left
        rw [Function.iterate_succ_apply'] at heq
        rw [Function.iterate_succ_apply', Function.iterate_succ_apply', heq]
        exact heq
      · right
        have hsub : (compGrow g thr)^[n] S ⊆ (compGrow g thr)^[n + 1] S := by
          rw [Function.iterate_succ_apply']
          exact subset_compGrow g thr _
        have hss : (compGrow g thr)^[n] S ⊂ (compGrow g thr)^[n + 1] S :=
          ssubset_of_subset_of_ne hsub (Ne.symm heq)
        have := Finset.card_lt_card hss
        omega

theorem comp_saturated (g : Grid) (thr : Nat → Nat → ℚ) (s : SPos g) :
    compGrow g thr (comp g thr s) = comp g thr s := by
  rcases compGrow_card_stab g thr {s} (Fintype.card (SPos g)) with h | h
  · unfold comp
    rw [Function.iterate_succ_apply'] at h
    exact h
  · exfalso
    have hle := Finset.card_le_univ
      ((compGrow g thr)^[Fintype.card (SPos g)] ({s} : Finset (SPos g)))
    simp only [Finset.card_singleton] at h
    omega

theorem comp_closed (g : Grid) (thr : Nat → Nat → ℚ) (s : SPos g)
    {p q : SPos g} (hq : qualifies g thr p = true) (hadj : adj q p = true)
    (hmem : q ∈ comp g thr s) : p ∈ comp g thr s := by
  rw [← comp_saturated g thr s]
  unfold compGrow
  refine Finset.mem_union_right _ (Finset.mem_filter.mpr ?_)
  exact ⟨Finset.mem_univ p, hq, q, hmem, hadj⟩

/-- Flood-fill reachability: a chain of 8-adjacent qualifying pixels. -/
def reaches (g : Grid) (thr : Nat → Nat → ℚ) (a b : SPos g) : Prop :=
  Relation.ReflTransGen
    (fun p q => qualifies g thr q = true ∧ adj p q = true) a b

theorem mem_comp_reaches (g : Grid) (thr : Nat → Nat → ℚ) (s : SPos g) :
    ∀ p ∈ comp g thr s, reaches g thr s p := by
  have key : ∀ k, ∀ p ∈ (compGrow g thr)^[k] ({s} : Finset (SPos g)),
      reaches g thr s p := by
    intro k
    induction k with
    | zero =>
      intro p hp
      rw [Function.iterate_zero_apply, Finset.mem_singleton] at hp
      rw [hp]
      exact Relation.ReflTransGen.refl
    | succ n ih =>
      intro p hp
      rw [Function.iterate_succ_apply'] at hp
      unfold compGrow at hp
      rcases Finset.mem_union.mp hp with hp | hp
      · exact ih p hp
      · obtain ⟨_, hq, q, hqm, hadj⟩ := Finset.mem_filter.mp hp
        exact Relation.ReflTransGen.tail (ih q hqm) ⟨hq, hadj⟩
  exact key (Fintype.card (SPos g))

theorem reaches_mem_comp (g : Grid) (thr : Nat → Nat → ℚ) {s p : SPos g}
    (h : reaches g thr s p) : p ∈ comp g thr s := by
  induction h with
  | refl => exact comp_mem_self g thr s
  | tail _ hstep ih => exact comp_closed g thr s hstep.1 hstep.2 ih

theorem adj_symm {g : Grid} {p q : SPos g} (h : adj p q = true) :
    adj q p = true := by
  simp only [adj, Bool.and_eq_true, decide_eq_true_eq] at h ⊢
  obtain ⟨⟨hne, h1⟩, h2⟩ := h
  refine ⟨⟨hne.symm, ?_⟩, ?_⟩ <;> (unfold withinDist at *; omega)

theorem reaches_end_qualifies (g : Grid) (thr : Nat → Nat → ℚ)
    {s p : SPos g} (h : reaches g thr s p) :
    p = s ∨ qualifies g thr p = true := by
  induction h with
  | refl => exact Or.inl rfl
  | tail _ hstep _ => exact Or.inr hstep.1

theorem reaches_symm (g : Grid) (thr : Nat → Nat → ℚ) {s p : SPos g}
    (hs : qualifies g thr s = true) (h : reaches g thr s p) :
    reaches g thr p s := by
  induction h with
  | refl => exact Relation.ReflTransGen.refl
  | tail hsq hstep ih =>
    rename_i q p2
    have hq : qualifies g thr q = true := by
      rcases reaches_end_qualifies g thr hsq with he | hq
      · rw [he]; exact hs
      · exact hq
    exact Relation.ReflTransGen.head ⟨hq, adj_symm hstep.2⟩ ih

theorem comp_eq_of_overlap (g : Grid) (thr : Nat → Nat → ℚ)
    {s1 s2 p : SPos g} (hs1 : qualifies g thr s1 = true)
    (hs2 : qualifies g thr s2 = true) (h1 : p ∈ comp g thr s1)
    (h2 : p ∈ comp g thr s2) : comp g thr s1 = comp g thr s2 := by
  have r1 : reaches g thr s1 p := mem_comp_reaches g thr s1 p h1
  have r2 : reaches g thr s2 p := mem_comp_reaches g thr s2 p h2
  have r12 : reaches g thr s1 s2 := r1.trans (reaches_symm g thr hs2 r2)
  have r21 : reaches g thr s2 s1 := r2.trans (reaches_symm g thr hs1 r1)
  apply Finset.Subset.antisymm
  · intro x hx
    exact reaches_mem_comp g thr
      (r21.trans (mem_comp_reaches g thr s1 x hx))
  · intro x hx
    exact reaches_mem_comp g thr
      (r12.trans (mem_comp_reaches g thr s2 x hx))

/-- Row-major rank of a pixel, the order of the scan that encounters
component seeds (§4.2 ordering contract). -/
def rm (g : Grid) (p : SPos g) : Nat :=
  p.1.1 * g.W + p.2.1

theorem rm_inj (g : Grid) (p q : SPos g) (h : rm g p = rm g q) : p = q := by
  unfold rm at h
  have hx : p.2.1 = q.2.1 := by
    have hm := congrArg (fun n => n % g.W) h
    simpa [Nat.mul_add_mod', Nat.mod_eq_of_lt p.2.isLt,
      Nat.mod_eq_of_lt q.2.isLt] using hm
  have hW : 0 < g.W := lt_of_le_of_lt (Nat.zero_le _) p.2.isLt
  have hy : p.1.1 = q.1.1 := by
    have h2 : p.1.1 * g.W = q.1.1 * g.W := by omega
    exact Nat.eq_of_mul_eq_mul_right hW h2
  exact Prod.ext (Fin.ext hy) (Fin.ext hx)

/-- Modelled from the spec: a pixel is the seed of an emitted component
when it qualifies and is the first pixel of its component in row-major
scan order. -/
def isSeed (g : Grid) (thr : Nat → Nat → ℚ) (s : SPos g) : Prop :=
  qualifies g thr s = true ∧ ∀ p ∈ comp g thr s, rm g s ≤ rm g p

instance (g : Grid) (thr : Nat → Nat → ℚ) :
    DecidablePred (isSeed g thr) := by
  intro s
  unfold isSeed
  infer_instance

/-- Modelled from the spec: the seeds of the components Search emits, one
BoxSet per seed. -/
def searchSeeds (g : Grid) (thr : Nat → Nat → ℚ) : Finset (SPos g) :=
  Finset.univ.filter (fun s => isSeed g thr s)

/-- Whether the component of seed `s` occupies absolute position
`(Y, X)`. -/
def compAbs (g : Grid) (thr : Nat → Nat → ℚ) (s : SPos g) (Y X : Nat) :
    Bool :=
  decide (∃ p ∈ comp g thr s, p.1.1 = Y ∧ p.2.1 = X)

/-- Modelled from the spec (§4.2 step 3): the BoxSet Search emits for the
component of seed `s` — tight bounding box of the component, local mask
of component membership, id taken from the deterministic scan order. -/
def searchBox (g : Grid) (thr : Nat → Nat → ℚ) (s : SPos g) : BoxSet :=
  let c := comp g thr s
  let hne : c.Nonempty := ⟨s, comp_mem_self g thr s⟩
  let X1 := (c.image (fun p => p.2.1)).min' (hne.image _)
  let Y1 := (c.image (fun p => p.1.1)).min' (hne.image _)
  let X2 := (c.image (fun p => p.2.1)).max' (hne.image _)
  let Y2 := (c.image (fun p => p.1.1)).max' (hne.image _)
  { id := rm g s
    bounds := { x1 := X1, y1 := Y1, x2 := X2 + 1, y2 := Y2 + 1 }
    mask := fun yy xx => compAbs g thr s (Y1 + yy) (X1 + xx) }

theorem searchBox_absMask (g : Grid) (thr : Nat → Nat → ℚ) (s : SPos g)
    (Y X : Nat) (h : absMask (searchBox g thr s) Y X = true) :
    ∃ p ∈ comp g thr s, p.1.1 = Y ∧ p.2.1 = X := by
  simp only [absMask, searchBox, Bool.and_eq_true, decide_eq_true_eq] at h
  obtain ⟨⟨⟨⟨hy1, _⟩, hx1⟩, _⟩, hm⟩ := h
  rw [show (Finset.min' _ _) + (Y - Finset.min' _ _) = Y from by omega,
    show (Finset.min' _ _) + (X - Finset.min' _ _) = X from by omega] at hm
  simpa only [compAbs, decide_eq_true_eq] using hm

/-- C6: the masks of the BoxSets emitted by Search are pairwise disjoint
— no grid pixel is a true mask cell of two distinct Search-emitted
BoxSets. -/
theorem C6_search_masks_disjoint (g : Grid) (thr : Nat → Nat → ℚ)
    (s1 s2 : SPos g) (h1 : s1 ∈ searchSeeds g thr)
    (h2 : s2 ∈ searchSeeds g thr) (hne : s1 ≠ s2) (Y X : Nat) :
    ¬(absMask (searchBox g thr s1) Y X = true ∧
      absMask (searchBox g thr s2) Y X = true) := by
  rintro ⟨ha1, ha2⟩
  obtain ⟨p1, hp1, he1⟩ := searchBox_absMask g thr s1 Y X ha1
  obtain ⟨p2, hp2, he2⟩ := searchBox_absMask g thr s2 Y X ha2
  have hp : p1 = p2 :=
    Prod.ext (Fin.ext (he1.1.trans he2.1.symm))
      (Fin.ext (he1.2.trans he2.2.symm))
  have hs1 := (Finset.mem_filter.mp h1).2
  have hs2 := (Finset.mem_filter.mp h2).2
  have hceq : comp g thr s1 = comp g thr s2 :=
    comp_eq_of_overlap g thr hs1.1 hs2.1 hp1 (hp ▸ hp2)
  have hle1 : rm g s1 ≤ rm g s2 := by
    refine hs1.2 s2 ?_
    rw [hceq]
    exact comp_mem_self g thr s2
  have hle2 : rm g s2 ≤ rm g s1 := by
    refine hs2.2 s1 ?_
    rw [← hceq]
    exact comp_mem_self g thr s1
  exact hne (rm_inj g s1 s2 (Nat.le_antisymm hle1 hle2))

/-- A 1×3 grid whose outer pixels qualify against threshold 1 and whose
middle pixel does not: Search emits two components. -/
def searchGrid : Grid :=
  { H := 1, W := 3, cells := fun _ x => if x = 1 then some 0 else some 2 }

/-- Seed of the left component of `searchGrid`. -/
def seedA : SPos searchGrid := (⟨0, by decide⟩, ⟨0, by decide⟩)

/-- Seed of the right component of `searchGrid`. -/
def seedB : SPos searchGrid := (⟨0, by decide⟩, ⟨2, by decide⟩)

theorem C6_search_masks_disjoint_witness :
    ¬(absMask (searchBox searchGrid (fun _ _ => 1) seedA) 0 0 = true ∧
      absMask (searchBox searchGrid (fun _ _ => 1) seedB) 0 0 = true) :=
  C6_search_masks_disjoint searchGrid (fun _ _ => 1) seedA seedB
    (by decide) (by decide) (by decide) 0 0

end Sorcerer
